import Mathlib

/-!
# Shallow embedding of the BlackBird MCTS core (`src/mcts.py`)

Numeric values (`numpy` float arrays, visit counts) are modelled over `ℚ`
so that every definition is executable and every comparison decidable.
Game states are opaque values exposing equality and the player to move
(`State.Player` in the source), modelled by the structure `GState`.

A `Node` (class `Node`) owns
  * `state`    : the game state (`self.State`),
  * `value`    : accumulated value (`self.Value`),
  * `plays`    : visit count (`self.Plays`),
  * `legalActions` : the fixed-length 0/1 mask (`self.LegalActions`),
  * `priors`   : the prior vector already masked by the legal actions,
                 as `Node.__init__` stores `np.multiply(priors, legalActions)`,
  * `children` : `None` (`Option.none`) or a list of optional child nodes —
                 `Node.__init__` sets it to the *empty list*, `AddChildren`
                 to a full list, and `_runMCTS` / `_mergeAll` set it to `None`,
  * `cwrCache` : the `_childWinRates` cache array,
  * `cpCache`  : the `_childPlays` cache array.

Python mutates nodes in place; the embedding passes updated copies.
-/

structure GState where
  ident : ℕ
  player : ℕ
deriving DecidableEq, Repr

/-- One vertex of the search tree (class `Node` of `src/mcts.py`).
Field order: state, value, plays, legalActions, priors, children,
`_childWinRates` cache, `_childPlays` cache. -/
inductive Node : Type where
  | mk (state : GState) (value : ℚ) (plays : ℚ)
       (legalActions : List ℚ) (priors : List ℚ)
       (children : Option (List (Option Node)))
       (cwrCache : List ℚ) (cpCache : List ℚ) : Node

def Node.state : Node → GState
  | .mk s _ _ _ _ _ _ _ => s

def Node.value : Node → ℚ
  | .mk _ v _ _ _ _ _ _ => v

def Node.plays : Node → ℚ
  | .mk _ _ p _ _ _ _ _ => p

def Node.legalActions : Node → List ℚ
  | .mk _ _ _ l _ _ _ _ => l

def Node.priors : Node → List ℚ
  | .mk _ _ _ _ pr _ _ _ => pr

def Node.children : Node → Option (List (Option Node))
  | .mk _ _ _ _ _ c _ _ => c

def Node.cwrCache : Node → List ℚ
  | .mk _ _ _ _ _ _ w _ => w

def Node.cpCache : Node → List ℚ
  | .mk _ _ _ _ _ _ _ p => p

/-- `Node.__init__(state, legalActions, priors)`: zero statistics, children
start as the *empty list* (`self.Children = []`, not `None`), priors are
masked by the legal-action mask, and both caches start as zero arrays of
the action-space length. -/
def mkNode (state : GState) (legalActions : List ℚ) (priors : List ℚ) : Node :=
  .mk state 0 0 legalActions (List.zipWith (fun p l => p * l) priors legalActions)
    (some []) (legalActions.map (fun _ => 0)) (legalActions.map (fun _ => 0))

/-- `Node.WinRate`: `Value/Plays` when `Plays > 0`, else `0`. -/
def Node.winRate (n : Node) : ℚ :=
  if n.plays > 0 then n.value / n.plays else 0

/-- `Node.AvgValue` has the same body as `Node.WinRate`. -/
def Node.avgValue (n : Node) : ℚ :=
  if n.plays > 0 then n.value / n.plays else 0

/-- The children as a plain list, for the `for i in range(len(self.Children))`
loops; a `None` children field is only ever iterated after the source has
guarded against it. -/
def Node.childrenList (n : Node) : List (Option Node) :=
  n.children.getD []

/-- The `for i in range(len(self.Children))` refresh loop shared by
`Node.ChildWinRates` and `Node.ChildPlays`: walk the cache array and the
children array in step; where a child is present, overwrite the cache
entry with `get child`; where the slot is empty (or beyond the children
array, which is shorter only when it is `[]`), keep the cached value. -/
def refreshCache (get : Node → ℚ) : List ℚ → List (Option Node) → List ℚ
  | [], _ => []
  | old :: cache, [] => old :: refreshCache get cache []
  | old :: cache, none :: cs => old :: refreshCache get cache cs
  | _old :: cache, some c :: cs => get c :: refreshCache get cache cs

/-- The array returned by `Node.ChildWinRates`: the `_childWinRates` cache
with every index holding a present child refreshed to that child's
`WinRate()`; indices without a present child keep the cached value. -/
def Node.childWinRatesList (n : Node) : List ℚ :=
  refreshCache Node.winRate n.cwrCache n.childrenList

/-- The array returned by `Node.ChildPlays`: the `_childPlays` cache with
every index holding a present child refreshed to that child's `Plays`. -/
def Node.childPlaysList (n : Node) : List ℚ :=
  refreshCache Node.plays n.cpCache n.childrenList

/-- The pre-normalization selection vector of `Node.ChildProbability`
(line 41 of `mcts.py`): for each index,
`childWinRates[i] + explorationFactor * priors[i] * plays / (1 + childPlays[i])`. -/
def Node.selectionRates (n : Node) (f : ℚ) : List ℚ :=
  List.zipWith (fun a b => a + b) n.childWinRatesList
    (List.zipWith (fun pr cp => f * pr * n.plays / (1 + cp)) n.priors n.childPlaysList)

/-- The array returned by `Node.ChildProbability(explorationFactor)`:
`np.multiply(rates/sum(rates), self.LegalActions)`, i.e. each selection rate
divided by the total and masked by the legal-action entry.  (In `numpy`,
dividing by a zero sum yields `nan`/`inf`; over `ℚ` division by zero is `0` —
either way the result is not a probability vector when the sum vanishes.) -/
def Node.childProbability (n : Node) (f : ℚ) : List ℚ :=
  List.zipWith (fun r l => r / (n.selectionRates f).sum * l) (n.selectionRates f) n.legalActions

/-- `Node.ChildProbability` with its cache side effects.  The source binds
`rates = self.ChildWinRates()`, which is the `_childWinRates` array itself,
and then executes `rates += ...` *in place*: after the call the
`_childWinRates` cache holds the refreshed win rates plus the exploration
bonus, and `_childPlays` holds the refreshed child plays.  Returns the
updated node together with the (freshly allocated) probability array. -/
def Node.childProbabilityRun (n : Node) (f : ℚ) : Node × List ℚ :=
  (.mk n.state n.value n.plays n.legalActions n.priors n.children
     (n.selectionRates f) n.childPlaysList,
   n.childProbability f)

/-- The maximum of a list of rationals (`0` for the empty list, which
`np.argmax` rejects anyway). -/
def listMax : List ℚ → ℚ
  | [] => 0
  | [x] => x
  | x :: y :: ys => max x (listMax (y :: ys))

/-- `np.argmax`: the first index attaining the maximum. -/
def argmaxIdx : List ℚ → ℕ
  | [] => 0
  | [_] => 0
  | x :: y :: ys => if listMax (y :: ys) ≤ x then 0 else argmaxIdx (y :: ys) + 1

/-- `np.multiply(root.ChildWinRates(), root.LegalActions)`: the child win
rates masked by the legal actions. -/
def greedyVector (root : Node) : List ℚ :=
  List.zipWith (fun a b => a * b) root.childWinRatesList root.legalActions

/-- `MCTS._selectAction(root, exploring=False)` (line 151):
`np.argmax(np.multiply(root.ChildWinRates(), root.LegalActions))` — the
first-maximal index of the child win rates masked by the legal actions. -/
def selectActionGreedy (root : Node) : ℕ :=
  argmaxIdx (greedyVector root)

/-- The game-specific extension points (`ApplyAction`, `LegalActions`,
`GetPriors`) that the abstract `MCTS` base class leaves to subclasses. -/
structure Game where
  legalActions : GState → List ℚ
  getPriors : GState → List ℚ
  applyAction : GState → ℕ → GState

/-- `MCTS._applyAction(state, action)` (lines 215–218): computes the
successor `s = self.ApplyAction(self, state, action)` and asserts that it
has a `Player` attribute (every `GState` does), but then falls off the end
of the function — Python therefore returns `None`, never the successor. -/
def mctsApplyAction (g : Game) (state : GState) (action : ℕ) : Option GState :=
  let _s := g.applyAction state action
  none

/-- A Python value appearing in `FindMove`'s returned triple: either a bound
method object (an attribute access without call parentheses) or an actual
number. -/
inductive PyValue where
  | methodReference
  | rational (q : ℚ)
deriving DecidableEq, Repr

/-- The triple built at line 95 of `mcts.py`,
`return self._applyAction(state, action), self.Root.AvgValue, self.Root.ChildProbability()`:
the first component is `_applyAction`'s return value (`None`), the second is
the attribute `self.Root.AvgValue` — the *bound method*, since the call
parentheses are missing — and the third is `ChildProbability()` evaluated at
its default `explorationFactor = 0.0`. -/
def findMoveReturn (g : Game) (root : Node) (state : GState) (action : ℕ) :
    Option GState × PyValue × List ℚ :=
  (mctsApplyAction g state action, PyValue.methodReference, root.childProbability 0)

/-- The first child of `cs` (skipping empty slots) whose state equals
`state` — the `for child in self.Root.Children` loop of `MCTS._moveRoot`. -/
def findMatchingChild (cs : List (Option Node)) (state : GState) : Option Node :=
  cs.findSome? (fun oc => oc.bind (fun c => if c.state = state then some c else none))

/-- `MCTS._moveRoot(state)` (lines 179–191): no root — nothing to do; root
with `Children is None` — drop the root; otherwise shift the root to the
first matching child, or leave it unchanged when no child matches. -/
def moveRootStep (root : Option Node) (state : GState) : Option Node :=
  match root with
  | none => none
  | some r =>
    match r.children with
    | none => none
    | some cs =>
      match findMatchingChild cs state with
      | some c => some c
      | none => some r

/-- `MCTS.MoveRoot(states)`: fold `_moveRoot` over the given states. -/
def moveRoot (root : Option Node) (states : List GState) : Option Node :=
  states.foldl moveRootStep root

/-- Which of `FindMove`'s two assertions fails. -/
inductive AbortReason where
  | rootMismatch
  | noCutoff
deriving DecidableEq, Repr

/-- The precondition logic of `MCTS.FindMove` (lines 74–86): resolve the
call-site `moveTime`/`playLimit` overrides against the configured
`TimeLimit`/`PlayLimit` defaults (`endTime` is set iff the resolved
`moveTime` is), create a root from `state` if none exists, then assert —
in source order — that the root's state equals `state` and that at least
one cutoff is set.  Returns the failing assertion, if any. -/
def findMoveAbortCheck (g : Game) (timeLimitCfg : Option ℚ) (playLimitCfg : Option ℚ)
    (root : Option Node) (state : GState) (moveTime : Option ℚ) (playLimit : Option ℚ) :
    Option AbortReason :=
  let moveTimeR := match moveTime with | none => timeLimitCfg | some t => some t
  let playLimitR := match playLimit with | none => playLimitCfg | some p => some p
  let r := match root with
           | none => mkNode state (g.legalActions state) (g.getPriors state)
           | some r0 => r0
  if r.state ≠ state then some AbortReason.rootMismatch
  else if moveTimeR.isNone ∧ playLimitR.isNone then some AbortReason.noCutoff
  else none

/-- The attribute keys of an `MCTS` instance after `__init__` (lines 59–66):
`Pool` is set only when `Threads > 1`. -/
def mctsInstanceKeys (threads : ℕ) : List String :=
  if threads > 1 then
    ["TimeLimit", "PlayLimit", "ExplorationRate", "Root", "Threads", "Pool"]
  else
    ["TimeLimit", "PlayLimit", "ExplorationRate", "Root", "Threads"]

/-- `MCTS.__getstate__` (lines 237–240): copy the instance dictionary and
`del self_dict['Pool']`.  In Python, `del` on a missing key raises
`KeyError`; modelled by `Except.error`. -/
def mctsGetState (threads : ℕ) : Except String (List String) :=
  let d := mctsInstanceKeys threads
  if "Pool" ∈ d then Except.ok (d.erase "Pool") else Except.error "KeyError: Pool"

/-- `Plays += 1`. -/
def Node.bumpPlays : Node → Node
  | .mk s v p l pr c w q => .mk s v (p + 1) l pr c w q

/-- `Value += x`. -/
def Node.addValue (x : ℚ) : Node → Node
  | .mk s v p l pr c w q => .mk s (v + x) p l pr c w q

/-- Look up the node addressed by a list of child indices (the functional
stand-in for following `Children[i]` links downward). -/
def getNode : Node → List ℕ → Option Node
  | n, [] => some n
  | n, i :: rest =>
    match n.children with
    | none => none
    | some cs =>
      match cs.get? i with
      | some (some c) => getNode c rest
      | _ => none

/-- `MCTS.BackProp(leaf, stateValue, playerForValue)` (lines 204–213).
The source walks the `Parent` pointers upward from the leaf: every visited
node gets `Plays += 1`; a visited node that has a parent also gets
`Value += stateValue` when `Parent.State.Player == playerForValue` and
`Value += 1 - stateValue` otherwise; the climb stops at the node with no
parent.  The embedding performs the identical update top-down on the tree,
along the path of child indices from the topmost node to the leaf (the
reversal of the parent chain); if the path breaks off, only the nodes
reached so far are updated (unreachable through the source's parent
pointers, which always address existing nodes). -/
def backProp (v : ℚ) (p : ℕ) : Node → List ℕ → Node
  | n, [] => n.bumpPlays
  | n, i :: rest =>
    match n with
    | .mk s nv np l pr c w q =>
      match c with
      | none => Node.bumpPlays (.mk s nv np l pr c w q)
      | some cs =>
        match cs.get? i with
        | some (some child) =>
          let flip : ℚ := if s.player = p then v else 1 - v
          Node.bumpPlays (.mk s nv np l pr
            (some (cs.set i (some (backProp v p (child.addValue flip) rest)))) w q)
        | _ => Node.bumpPlays (.mk s nv np l pr c w q)

lemma sizeOf_children_lt (n : Node) (cs : List (Option Node)) (h : n.children = some cs) :
    sizeOf cs < sizeOf n := by
  cases n with
  | mk s v p l pr c w q =>
    simp [Node.children] at h
    subst h
    simp [Node.mk.sizeOf_spec]
    omega

lemma sizeOf_filter_le (p : Node → Bool) (l : List Node) :
    sizeOf (l.filter p) ≤ sizeOf l := by
  induction l with
  | nil => simp
  | cons t rest ih =>
    by_cases hp : p t
    · simp [List.filter_cons, hp]
      omega
    · simp [List.filter_cons, hp]
      omega

lemma sizeOf_slot_lt (t : Node) (i : ℕ) (c : Node)
    (h : ((t.children.getD []).get? i).bind id = some c) : sizeOf c < sizeOf t := by
  cases htc : t.children with
  | none => rw [htc] at h; simp at h
  | some cs =>
    rw [htc] at h
    simp only [Option.getD_some] at h
    have hmem : some c ∈ cs := by
      cases hg : cs.get? i with
      | none => rw [hg] at h; simp at h
      | some oc =>
        rw [hg] at h
        cases oc with
        | none => simp at h
        | some c0 =>
          simp at h
          subst h
          exact List.get?_mem hg
    have h1 : sizeOf (some c) < sizeOf cs := List.sizeOf_lt_of_mem hmem
    have h2 : sizeOf cs < sizeOf t := sizeOf_children_lt t cs htc
    simp at h1
    omega

lemma sizeOf_subForest_le (rem : List Node) (i : ℕ) :
    sizeOf (rem.filterMap (fun t => ((t.children.getD []).get? i).bind id)) ≤ sizeOf rem := by
  induction rem with
  | nil => simp
  | cons t rest ih =>
    cases hft : ((t.children.getD []).get? i).bind id with
    | none =>
      simp only [List.filterMap_cons, hft, List.cons.sizeOf_spec]
      omega
    | some c =>
      have := sizeOf_slot_lt t i c hft
      simp only [List.filterMap_cons, hft, List.cons.sizeOf_spec]
      omega

mutual
/-- `MCTS._mergeAll(target, trees)` (lines 118–140).  Step 1: add every
worker tree's `Plays`/`Value` into the target.  Step 2: among the trees
whose `Children is not None` (`continuedTrees`), if `target.Children is
None`, adopt the first such tree's children array (the source also
re-parents each adopted child to `target`, a back-pointer the functional
tree embedding keeps implicit) and drop that tree from further structural
consideration.  Step 3: recurse into each non-empty child slot of the
target with the corresponding slots of the remaining continued trees.
The source indexes `t.Children[i]` directly; the embedding's `filterMap`
skips slots that are `None` or out of range, which on structurally aligned
trees (same legal mask, hence matching slot layout) never occurs. -/
def mergeAll (target : Node) (trees : List Node) : Node :=
  let sumV := target.value + (trees.map Node.value).sum
  let sumP := target.plays + (trees.map Node.plays).sum
  match hcont : trees.filter (fun t => t.children.isSome) with
  | [] =>
    Node.mk target.state sumV sumP target.legalActions target.priors
      target.children target.cwrCache target.cpCache
  | t :: rest =>
    match htc : target.children with
    | none =>
      Node.mk target.state sumV sumP target.legalActions target.priors
        (some (mergeChildren (t.children.getD []) rest 0)) target.cwrCache target.cpCache
    | some cs0 =>
      Node.mk target.state sumV sumP target.legalActions target.priors
        (some (mergeChildren cs0 (t :: rest) 0)) target.cwrCache target.cpCache
termination_by sizeOf target + sizeOf trees
decreasing_by
· have hfle : sizeOf (List.filter (fun t => t.children.isSome) trees) ≤ sizeOf trees :=
    sizeOf_filter_le _ _
  rw [hcont] at hfle
  have hmemt : t ∈ List.filter (fun t => t.children.isSome) trees := by
    rw [hcont]; exact List.mem_cons_self _ _
  have hpt := (List.mem_filter.mp hmemt).2
  simp only [Option.isSome_iff_exists] at hpt
  obtain ⟨cs1, hcs1⟩ := hpt
  have h1 : sizeOf cs1 < sizeOf t := sizeOf_children_lt t cs1 hcs1
  rw [hcs1]
  simp only [Option.getD_some]
  simp only [List.cons.sizeOf_spec] at hfle
  omega
· have hfle : sizeOf (List.filter (fun t => t.children.isSome) trees) ≤ sizeOf trees :=
    sizeOf_filter_le _ _
  rw [hcont] at hfle
  have h1 : sizeOf cs0 < sizeOf target := sizeOf_children_lt target cs0 htc
  simp only [List.cons.sizeOf_spec] at hfle ⊢
  omega

/-- The `for i in range(len(target.Children))` loop of `MCTS._mergeAll`:
empty slots are skipped, non-empty slots are merged with the matching
slots of the remaining continued trees. -/
def mergeChildren : List (Option Node) → List Node → ℕ → List (Option Node)
  | [], _, _ => []
  | none :: cs, rem, i => none :: mergeChildren cs rem (i + 1)
  | some c :: cs, rem, i =>
    some (mergeAll c (rem.filterMap (fun t => ((t.children.getD []).get? i).bind id)))
      :: mergeChildren cs rem (i + 1)
termination_by cs rem i => sizeOf cs + sizeOf rem
decreasing_by
· simp only [List.cons.sizeOf_spec, Option.none.sizeOf_spec]
  omega
· have h1 := sizeOf_subForest_le rem i
  simp only [List.cons.sizeOf_spec, Option.some.sizeOf_spec]
  omega
· simp only [List.cons.sizeOf_spec, Option.some.sizeOf_spec]
  omega
end

/-- C1: `FindMove`'s returned triple does NOT consist of the successor
state, the root's average value and `childSelectionProbability(explorationRate)`:
`_applyAction` falls off its end, so the first component is always `None`;
the second component is the uncalled bound method `self.Root.AvgValue`;
and the third is `ChildProbability()` at the default exploration factor
`0.0`, which in general differs from the distribution at a nonzero
configured exploration rate (witnessed by a concrete node). -/
theorem C1_findMove_returns_none_and_method :
    (∀ (g : Game) (root : Node) (state : GState) (action : ℕ),
        (findMoveReturn g root state action).1 = none
      ∧ (findMoveReturn g root state action).2.1 = PyValue.methodReference)
  ∧ (∃ (n : Node) (f : ℚ), n.childProbability f ≠ n.childProbability 0) := by
  constructor
  · intro g root state action
    exact ⟨rfl, rfl⟩
  · refine ⟨Node.mk ⟨0, 0⟩ 0 2 [1] [1] (some []) [0] [0], 1, ?_⟩
    have h1 : (Node.mk ⟨0, 0⟩ 0 2 [1] [1] (some []) [0] [0] : Node).childProbability 1 = [1] := by
      norm_num [Node.childProbability, Node.selectionRates, Node.childWinRatesList,
        Node.childPlaysList, refreshCache, Node.childrenList, Node.children, Node.cwrCache,
        Node.cpCache, Node.priors, Node.plays, Node.legalActions]
    have h0 : (Node.mk ⟨0, 0⟩ 0 2 [1] [1] (some []) [0] [0] : Node).childProbability 0 = [0] := by
      norm_num [Node.childProbability, Node.selectionRates, Node.childWinRatesList,
        Node.childPlaysList, refreshCache, Node.childrenList, Node.children, Node.cwrCache,
        Node.cpCache, Node.priors, Node.plays, Node.legalActions]
    rw [h1, h0]
    norm_num

/-- A node whose exploration bonus is nonzero at an index with no present
child: legal actions `[1,1]`, masked priors `[1/2,1/2]`, 2 plays, no
children (e.g. a terminal leaf that accumulated visits). -/
def c8node : Node := Node.mk ⟨0, 0⟩ 0 2 [1, 1] [1/2, 1/2] (some []) [0, 0] [0, 0]

/-- C8: `ChildProbability` leaves `value`, `plays`, `priors` and
`legalActions` untouched, but its in-place `rates += ...` writes the
exploration bonus into the `_childWinRates` cache: before the call
`ChildWinRates()` yields `[0, 0]` (no child present), after a call with
exploration factor `1` it yields `[1, 1]` — values inflated by the bonus,
not the children's `value/plays`. -/
theorem C8_childProbability_corrupts_cache :
    ((c8node.childProbabilityRun 1).1).value = c8node.value
  ∧ ((c8node.childProbabilityRun 1).1).plays = c8node.plays
  ∧ ((c8node.childProbabilityRun 1).1).priors = c8node.priors
  ∧ ((c8node.childProbabilityRun 1).1).legalActions = c8node.legalActions
  ∧ c8node.childWinRatesList = [0, 0]
  ∧ ((c8node.childProbabilityRun 1).1).childWinRatesList = [1, 1] := by
  refine ⟨rfl, rfl, rfl, rfl, ?_, ?_⟩
  · norm_num [c8node, Node.childWinRatesList, refreshCache, Node.childrenList,
      Node.children, Node.cwrCache]
  · norm_num [c8node, Node.childProbabilityRun, Node.childWinRatesList, Node.childPlaysList,
      Node.selectionRates, refreshCache, Node.childrenList, Node.children, Node.cwrCache,
      Node.cpCache, Node.priors, Node.plays]

/-- C10 counterexample: serializing a single-threaded engine does not
succeed — `__init__` with `threads = 1` never creates `Pool`, so
`__getstate__`'s `del self_dict['Pool']` raises `KeyError`. -/
theorem C10_counterexample_single_thread_keyerror :
    mctsGetState 1 = Except.error "KeyError: Pool" := by
  rfl

/-- C10 (amended): for every worker count strictly greater than 1 the
serialized attribute dictionary is produced successfully and omits the
worker pool. -/
theorem C10_amended_pool_excluded (t : ℕ) (h : 1 < t) :
    mctsGetState t
      = Except.ok ["TimeLimit", "PlayLimit", "ExplorationRate", "Root", "Threads"]
  ∧ "Pool" ∉ ["TimeLimit", "PlayLimit", "ExplorationRate", "Root", "Threads"] := by
  have hk : mctsInstanceKeys t
      = ["TimeLimit", "PlayLimit", "ExplorationRate", "Root", "Threads", "Pool"] := by
    unfold mctsInstanceKeys
    rw [if_pos h]
  constructor
  · unfold mctsGetState
    rw [hk]
    rfl
  · decide

/-- Witness for `C10_amended_pool_excluded` at worker count 2. -/
theorem C10_amended_pool_excluded_witness :
    mctsGetState 2
      = Except.ok ["TimeLimit", "PlayLimit", "ExplorationRate", "Root", "Threads"]
  ∧ "Pool" ∉ ["TimeLimit", "PlayLimit", "ExplorationRate", "Root", "Threads"] :=
  C10_amended_pool_excluded 2 (by decide)

/-- A child node for the `_moveRoot` counterexample. -/
def c7child : Node := Node.mk ⟨1, 0⟩ 5 7 [1] [1] (some []) [0] [0]

/-- A root whose only child has state `⟨1, 0⟩`. -/
def c7root : Node := Node.mk ⟨0, 0⟩ 3 4 [1] [1] (some [some c7child]) [0] [0]

/-- C7 counterexample: when no child of the (expanded) root matches the
given state, `_moveRoot` does NOT drop the root — the `for` loop falls
through without the `else` branch the claim describes, leaving the root
unchanged. -/
theorem C7_counterexample_no_match_keeps_root :
    findMatchingChild [some c7child] ⟨2, 0⟩ = none
  ∧ moveRootStep (some c7root) ⟨2, 0⟩ = some c7root
  ∧ moveRootStep (some c7root) ⟨2, 0⟩ ≠ none := by
  refine ⟨rfl, rfl, ?_⟩
  intro h
  simp [moveRootStep, c7root, Node.children, findMatchingChild, c7child, Node.state] at h

/-- C7 (amended): a single `_moveRoot` step drops the root exactly when the
current root's `Children` field is `None`; when the root has a children
list and no child's state equals the given state, the root is left
unchanged; when some child matches, the first matching child becomes the
new root — the same node, so its `plays` and `value` are preserved. -/
theorem C7_amended_moveRoot_step (r : Node) (s : GState) :
    moveRootStep none s = none
  ∧ (r.children = none → moveRootStep (some r) s = none)
  ∧ (∀ cs, r.children = some cs → findMatchingChild cs s = none →
      moveRootStep (some r) s = some r)
  ∧ (∀ cs c, r.children = some cs → findMatchingChild cs s = some c →
      moveRootStep (some r) s = some c
      ∧ (moveRootStep (some r) s).map Node.plays = some c.plays
      ∧ (moveRootStep (some r) s).map Node.value = some c.value) := by
  refine ⟨rfl, ?_, ?_, ?_⟩
  · intro h
    simp [moveRootStep, h]
  · intro cs h hm
    simp [moveRootStep, h, hm]
  · intro cs c h hm
    refine ⟨?_, ?_, ?_⟩ <;> simp [moveRootStep, h, hm]

/-- Witness for `C7_amended_moveRoot_step`: the matching-child case at a
concrete root. -/
theorem C7_amended_moveRoot_step_witness :
    moveRootStep (some c7root) ⟨1, 0⟩ = some c7child
  ∧ (moveRootStep (some c7root) ⟨1, 0⟩).map Node.plays = some c7child.plays
  ∧ (moveRootStep (some c7root) ⟨1, 0⟩).map Node.value = some c7child.value :=
  (C7_amended_moveRoot_step c7root ⟨1, 0⟩).2.2.2 [some c7child] c7child rfl rfl

/-- The node of C4's counterexample: a freshly constructed root (zero
plays, zero cached statistics, legal actions `[1, 1]`). -/
def c4node : Node := mkNode ⟨0, 0⟩ [1, 1] [1/2, 1/2]

/-- C4 counterexample: on a fresh node every selection rate is `0`, so the
pre-normalization sum vanishes and `ChildProbability(0)` is not a
probability vector — in `numpy` the division yields `nan`s, over `ℚ` it
yields `[0, 0]`; under neither reading does it sum to 1 over the legal
indices (both indices are legal here). -/
theorem C4_counterexample_fresh_node_sum_zero :
    c4node.childProbability 0 = [0, 0]
  ∧ (c4node.childProbability 0).sum ≠ 1 := by
  have h : c4node.childProbability 0 = [0, 0] := by
    norm_num [c4node, mkNode, Node.childProbability, Node.selectionRates,
      Node.childWinRatesList, Node.childPlaysList, refreshCache, Node.childrenList,
      Node.children, Node.cwrCache, Node.cpCache, Node.priors, Node.plays,
      Node.legalActions]
  rw [h]
  norm_num

/-- The expanded 1-ply node of the spec's end-to-end scenario:
`legalActions = [1,1,0]`, `priors = [0.6,0.4,0]`, children with
`plays = [10,10,-]` and `value = [8,2,-]`. -/
def c5specChild0 : Node := Node.mk ⟨1, 1⟩ 8 10 [1] [1] (some []) [0] [0]

def c5specChild1 : Node := Node.mk ⟨2, 1⟩ 2 10 [1] [1] (some []) [0] [0]

def c5specRoot : Node :=
  Node.mk ⟨0, 0⟩ 10 20 [1, 1, 0] [3/5, 2/5, 0]
    (some [some c5specChild0, some c5specChild1, none]) [0, 0, 0] [0, 0, 0]

/-- A root for C5's counterexample: action 0 is illegal (no child there),
action 1 is legal with a child of win rate `0`. -/
def c5badChild : Node := Node.mk ⟨1, 0⟩ 0 1 [] [] (some []) [] []

def c5badRoot : Node :=
  Node.mk ⟨0, 0⟩ 0 1 [0, 1] [0, 1] (some [none, some c5badChild]) [0, 0] [0, 0]

/-- C5 counterexample: with every masked win rate equal to `0`,
`np.argmax` returns index 0 even when action 0 is illegal — the greedy
final selection is NOT always a legal action. -/
theorem C5_counterexample_illegal_argmax :
    selectActionGreedy c5badRoot = 0
  ∧ c5badRoot.legalActions.get? 0 = some 0 := by
  constructor
  · norm_num [selectActionGreedy, greedyVector, c5badRoot, c5badChild,
      Node.childWinRatesList, refreshCache, Node.childrenList, Node.children, Node.cwrCache,
      Node.legalActions, Node.winRate, Node.plays, Node.value, argmaxIdx, listMax]
  · rfl

/-- C9: `FindMove` aborts on an assertion exactly when, after resolving the
call-site overrides against the configured defaults, neither a time budget
nor a play limit is set, or a root exists whose state differs from the
given state; when a budget is set and the root (if any) matches, neither
assertion fires (a root created on the spot always matches). -/
theorem C9_findMove_abort_iff (g : Game) (tlc plc : Option ℚ) (root : Option Node)
    (state : GState) (mt pl : Option ℚ) :
    findMoveAbortCheck g tlc plc root state mt pl = none ↔
      ((mt.isSome ∨ tlc.isSome ∨ pl.isSome ∨ plc.isSome)
        ∧ ∀ r0, root = some r0 → r0.state = state) := by
  cases root with
  | none =>
    simp only [findMoveAbortCheck, mkNode, Node.state]
    cases mt <;> cases pl <;> cases tlc <;> cases plc <;> simp
  | some r0 =>
    by_cases hst : r0.state = state
    · simp only [findMoveAbortCheck, hst]
      cases mt <;> cases pl <;> cases tlc <;> cases plc <;> simp [hst]
    · simp only [findMoveAbortCheck]
      cases mt <;> cases pl <;> cases tlc <;> cases plc <;> simp [hst]

/-- Single-node unexpanded worker trees for C6's concrete merge. -/
def c6w1 : Node := Node.mk ⟨0, 0⟩ 1 3 [1] [1] (some []) [0] [0]

def c6w2 : Node := Node.mk ⟨0, 0⟩ 2 5 [1] [1] (some []) [0] [0]

def c6target : Node := mkNode ⟨0, 0⟩ [1] [1]

/-- C6: `_mergeAll` adds the sum of all worker roots' `plays` and `value`
into the target (its first loop runs before any structural work, so this
holds regardless of the tree shapes); in particular two single-node
unexpanded workers with `plays = (3, 5)` and `value = (1, 2)` merged into
a fresh zero-statistics target give `plays = 8`, `value = 3`. -/
theorem C6_mergeAll_sums_statistics :
    (∀ (target : Node) (trees : List Node),
        (mergeAll target trees).plays = target.plays + (trees.map Node.plays).sum
      ∧ (mergeAll target trees).value = target.value + (trees.map Node.value).sum)
  ∧ (mergeAll c6target [c6w1, c6w2]).plays = 8
  ∧ (mergeAll c6target [c6w1, c6w2]).value = 3 := by
  have hgen : ∀ (target : Node) (trees : List Node),
      (mergeAll target trees).plays = target.plays + (trees.map Node.plays).sum
    ∧ (mergeAll target trees).value = target.value + (trees.map Node.value).sum := by
    intro target trees
    rw [mergeAll.eq_def]
    constructor
    · split
      · simp [Node.plays]
      · split <;> simp [Node.plays]
    · split
      · simp [Node.value]
      · split <;> simp [Node.value]
  refine ⟨hgen, ?_, ?_⟩
  · rw [(hgen c6target [c6w1, c6w2]).1]
    norm_num [c6target, c6w1, c6w2, mkNode, Node.plays]
  · rw [(hgen c6target [c6w1, c6w2]).2]
    norm_num [c6target, c6w1, c6w2, mkNode, Node.value]

lemma mergeAll_eq_cons (target : Node) (trees : List Node) (t : Node) (rest : List Node)
    (hcont : trees.filter (fun t => t.children.isSome) = t :: rest)
    (cs0 : List (Option Node)) (htc : target.children = some cs0) :
    mergeAll target trees = Node.mk target.state
      (target.value + (trees.map Node.value).sum)
      (target.plays + (trees.map Node.plays).sum)
      target.legalActions target.priors
      (some (mergeChildren cs0 (t :: rest) 0)) target.cwrCache target.cpCache := by
  rw [mergeAll.eq_def]
  split
  · rename_i h
    rw [hcont] at h
    exact absurd h (List.cons_ne_nil _ _)
  · rename_i t2 rest2 h
    rw [hcont] at h
    obtain ⟨rfl, rfl⟩ : t2 = t ∧ rest2 = rest := by
      exact ⟨(List.cons.injEq _ _ _ _ ▸ h).1.symm, (List.cons.injEq _ _ _ _ ▸ h).2.symm⟩
    split
    · rename_i h2
      rw [htc] at h2
      exact absurd h2 (by simp)
    · rename_i cs1 h2
      rw [htc] at h2
      obtain rfl : cs1 = cs0 := by
        exact (Option.some.injEq _ _ ▸ h2).symm
      rfl

/-- Grandchild retained inside the first worker's subtree. -/
def w3grand : Node := Node.mk ⟨2, 0⟩ 1 1 [1] [1] (some []) [0] [0]

/-- First worker's child, still holding a grandchild. -/
def w3childA : Node := Node.mk ⟨1, 0⟩ 2 3 [1] [1] (some [some w3grand]) [0] [0]

/-- Second worker's child (its own children pruned, as `_runMCTS` returns
them). -/
def w3childB : Node := Node.mk ⟨1, 0⟩ 1 2 [1] [1] none [0] [0]

/-- First worker tree: expanded root. -/
def w31 : Node := Node.mk ⟨0, 0⟩ 4 6 [1] [1] (some [some w3childA]) [0] [0]

/-- Second worker tree: expanded root. -/
def w32 : Node := Node.mk ⟨0, 0⟩ 2 5 [1] [1] (some [some w3childB]) [0] [0]

/-- A fresh canonical root for the same state, as `FindMove` creates it:
`Children == []` (the empty list, not `None`). -/
def c3target : Node := mkNode ⟨0, 0⟩ [1] [1]

/-- C3: merging two expanded worker trees into a fresh root does NOT donate
the first worker's children — the adoption branch requires
`target.Children is None`, but a fresh node's `Children` is `[]`, so the
merged root keeps its empty children array (no child, hence no
grandchildren, exists under the merged root at all, and no per-child
statistics are pooled); only the root's own `plays`/`value` receive the
worker sums. -/
theorem C3_merge_into_fresh_root_discards_structure :
    (mergeAll c3target [w31, w32]).children = some []
  ∧ w31.children = some [some w3childA]
  ∧ w3childA.children = some [some w3grand]
  ∧ (mergeAll c3target [w31, w32]).plays = 11
  ∧ (mergeAll c3target [w31, w32]).value = 6 := by
  have hcont : [w31, w32].filter (fun t => t.children.isSome) = [w31, w32] := by
    simp [List.filter, w31, w32, Node.children]
  have htc : c3target.children = some [] := rfl
  have h := mergeAll_eq_cons c3target [w31, w32] w31 [w32] hcont [] htc
  rw [mergeChildren.eq_def] at h
  refine ⟨?_, rfl, rfl, ?_, ?_⟩
  · rw [h]
    rfl
  · rw [h]
    norm_num [c3target, w31, w32, mkNode, Node.plays]
  · rw [h]
    norm_num [c3target, w31, w32, mkNode, Node.value]

lemma argmaxIdx_get (l : List ℚ) (h : l ≠ []) :
    l.get? (argmaxIdx l) = some (listMax l) := by
  induction l with
  | nil => exact absurd rfl h
  | cons x xs ih =>
    cases xs with
    | nil => rfl
    | cons y ys =>
      by_cases hle : listMax (y :: ys) ≤ x
      · simp [argmaxIdx, listMax, hle, max_eq_left hle]
      · have hlt : x < listMax (y :: ys) := lt_of_not_le hle
        simp only [argmaxIdx, listMax, if_neg hle]
        rw [List.get?_cons_succ, ih (List.cons_ne_nil _ _), max_eq_right (le_of_lt hlt)]

lemma argmaxIdx_first (l : List ℚ) :
    ∀ j, j < argmaxIdx l → ∀ z, l.get? j = some z → z < listMax l := by
  induction l with
  | nil => intro j hj; simp [argmaxIdx] at hj
  | cons x xs ih =>
    cases xs with
    | nil => intro j hj; simp [argmaxIdx] at hj
    | cons y ys =>
      intro j hj z hz
      by_cases hle : listMax (y :: ys) ≤ x
      · simp [argmaxIdx, hle] at hj
      · have hlt : x < listMax (y :: ys) := lt_of_not_le hle
        simp only [argmaxIdx, if_neg hle] at hj
        have hmax : listMax (x :: y :: ys) = listMax (y :: ys) := by
          simp [listMax, max_eq_right (le_of_lt hlt)]
        rw [hmax]
        cases j with
        | zero =>
          rw [List.get?_cons_zero] at hz
          cases hz
          exact hlt
        | succ j0 =>
          rw [List.get?_cons_succ] at hz
          exact ih j0 (Nat.lt_of_succ_lt_succ hj) z hz

/-- C5 (amended): the greedy final selection is the first-maximal index of
the child win rates *masked by the legal actions*: the masked vector
attains its maximum at the selected index and is strictly below the
maximum at every earlier index; the selected action is guaranteed legal
only when the masked maximum is positive (when every legal win rate is 0
the `argmax` of the all-zero vector is index 0, legal or not — see the
counterexample); on the spec's concrete 1-ply scenario (win rates 0.8 vs
0.2) it picks index 0. -/
theorem C5_amended_greedy_selection (root : Node) (hne : greedyVector root ≠ []) :
    (greedyVector root).get? (selectActionGreedy root) = some (listMax (greedyVector root))
  ∧ (∀ j, j < selectActionGreedy root → ∀ z, (greedyVector root).get? j = some z →
      z < listMax (greedyVector root))
  ∧ ((∀ x ∈ root.legalActions, x = 0 ∨ x = 1) → 0 < listMax (greedyVector root) →
      root.legalActions.get? (selectActionGreedy root) = some 1)
  ∧ selectActionGreedy c5specRoot = 0 := by
  refine ⟨argmaxIdx_get _ hne, fun j hj => argmaxIdx_first _ j hj, ?_, ?_⟩
  · intro hmask hpos
    have hget : (List.zipWith (fun a b => a * b) root.childWinRatesList
        root.legalActions).get? (selectActionGreedy root)
          = some (listMax (greedyVector root)) :=
      argmaxIdx_get (greedyVector root) hne
    rw [List.get?_zipWith_eq_some] at hget
    obtain ⟨a, b, ha, hb, hab⟩ := hget
    have hbmem : b ∈ root.legalActions := List.get?_mem hb
    rcases hmask b hbmem with hb0 | hb1
    · rw [hb0, mul_zero] at hab
      rw [← hab] at hpos
      exact absurd hpos (lt_irrefl 0)
    · rw [hb1] at hb
      exact hb
  · norm_num [selectActionGreedy, greedyVector, c5specRoot, c5specChild0, c5specChild1,
      Node.childWinRatesList, refreshCache, Node.childrenList, Node.children, Node.cwrCache,
      Node.legalActions, Node.winRate, Node.plays, Node.value, argmaxIdx, listMax]

/-- Witness for `C5_amended_greedy_selection` at the spec's 1-ply node:
the masked maximum `4/5` is attained at the selected index 0, which is a
legal action. -/
theorem C5_amended_greedy_selection_witness :
    (greedyVector c5specRoot).get? (selectActionGreedy c5specRoot)
      = some (listMax (greedyVector c5specRoot))
  ∧ c5specRoot.legalActions.get? (selectActionGreedy c5specRoot) = some 1
  ∧ selectActionGreedy c5specRoot = 0 := by
  have hvec : greedyVector c5specRoot = [4/5, 1/5, 0] := by
    norm_num [greedyVector, c5specRoot, c5specChild0, c5specChild1, Node.childWinRatesList,
      refreshCache, Node.childrenList, Node.children, Node.cwrCache, Node.legalActions,
      Node.winRate, Node.plays, Node.value]
  have hne : greedyVector c5specRoot ≠ [] := by
    rw [hvec]
    exact List.cons_ne_nil _ _
  have hmask : ∀ x ∈ c5specRoot.legalActions, x = (0:ℚ) ∨ x = 1 := by
    intro x hx
    rw [show c5specRoot.legalActions = [1, 1, 0] from rfl] at hx
    fin_cases hx <;> norm_num
  have hpos : 0 < listMax (greedyVector c5specRoot) := by
    norm_num [greedyVector, c5specRoot, c5specChild0, c5specChild1, Node.childWinRatesList,
      refreshCache, Node.childrenList, Node.children, Node.cwrCache, Node.legalActions,
      Node.winRate, Node.plays, Node.value, listMax]
  have h := C5_amended_greedy_selection c5specRoot hne
  exact ⟨h.1, h.2.2.1 hmask hpos, h.2.2.2⟩

lemma zip_add_zero : ∀ (a b legal : List ℚ),
    (∀ q ∈ List.zip a legal, q.2 = 0 → q.1 = 0) →
    (∀ q ∈ List.zip b legal, q.2 = 0 → q.1 = 0) →
    ∀ q ∈ List.zip (List.zipWith (fun x y => x + y) a b) legal, q.2 = 0 → q.1 = 0 := by
  intro a
  induction a with
  | nil => intro b legal _ _ q hq; simp at hq
  | cons x xs ih =>
    intro b legal ha hb q hq h0
    cases b with
    | nil => simp at hq
    | cons y ys =>
      cases legal with
      | nil => simp at hq
      | cons l ls =>
        rw [List.zipWith_cons_cons, List.zip_cons_cons] at hq
        rcases List.mem_cons.mp hq with h | h
        · subst h
          simp only at h0 ⊢
          have hx : x = 0 := ha (x, l) (by rw [List.zip_cons_cons]; exact List.mem_cons_self _ _) h0
          have hy : y = 0 := hb (y, l) (by rw [List.zip_cons_cons]; exact List.mem_cons_self _ _) h0
          rw [hx, hy, add_zero]
        · exact ih ys ls
            (fun q hq => ha q (by rw [List.zip_cons_cons]; exact List.mem_cons_of_mem _ hq))
            (fun q hq => hb q (by rw [List.zip_cons_cons]; exact List.mem_cons_of_mem _ hq))
            q h h0

lemma zip_bonus_zero (f plays : ℚ) : ∀ (pr cp legal : List ℚ),
    (∀ q ∈ List.zip pr legal, q.2 = 0 → q.1 = 0) →
    ∀ q ∈ List.zip (List.zipWith (fun p c => f * p * plays / (1 + c)) pr cp) legal,
      q.2 = 0 → q.1 = 0 := by
  intro pr
  induction pr with
  | nil => intro cp legal _ q hq; simp at hq
  | cons p ps ih =>
    intro cp legal hpr q hq h0
    cases cp with
    | nil => simp at hq
    | cons c cs =>
      cases legal with
      | nil => simp at hq
      | cons l ls =>
        rw [List.zipWith_cons_cons, List.zip_cons_cons] at hq
        rcases List.mem_cons.mp hq with h | h
        · subst h
          simp only at h0 ⊢
          have hp : p = 0 := hpr (p, l) (by rw [List.zip_cons_cons]; exact List.mem_cons_self _ _) h0
          rw [hp, mul_zero, zero_mul, zero_div]
        · exact ih cs ls
            (fun q hq => hpr q (by rw [List.zip_cons_cons]; exact List.mem_cons_of_mem _ hq))
            q h h0

lemma masked_div_sum (s : ℚ) (hs : s ≠ 0) :
    ∀ (rates legal : List ℚ), rates.length = legal.length →
    (∀ x ∈ legal, x = 0 ∨ x = 1) →
    (∀ q ∈ List.zip rates legal, q.2 = 0 → q.1 = 0) →
    (List.zipWith (fun r l => r / s * l) rates legal).sum = rates.sum / s := by
  intro rates
  induction rates with
  | nil => intro legal _ _ _; simp
  | cons r rs ih =>
    intro legal hlen hmask hz
    cases legal with
    | nil => simp at hlen
    | cons l ls =>
      rw [List.zipWith_cons_cons, List.sum_cons, List.sum_cons]
      rw [ih ls (by simpa using hlen) (fun x hx => hmask x (List.mem_cons_of_mem _ hx))
        (fun q hq => hz q (by rw [List.zip_cons_cons]; exact List.mem_cons_of_mem _ hq))]
      rcases hmask l (List.mem_cons_self _ _) with hl | hl
      · have hr : r = 0 := hz (r, l) (by rw [List.zip_cons_cons]; exact List.mem_cons_self _ _) hl
        rw [hr, hl, mul_zero, zero_add, zero_add]
      · rw [hl, mul_one, div_add_div_same]

lemma masked_div_mask_zero (s : ℚ) : ∀ (rates legal : List ℚ),
    ∀ q ∈ List.zip (List.zipWith (fun r l => r / s * l) rates legal) legal, q.2 = 0 → q.1 = 0 := by
  intro rates
  induction rates with
  | nil => intro legal q hq; simp at hq
  | cons r rs ih =>
    intro legal q hq h0
    cases legal with
    | nil => simp at hq
    | cons l ls =>
      rw [List.zipWith_cons_cons, List.zip_cons_cons] at hq
      rcases List.mem_cons.mp hq with h | h
      · subst h
        simp only at h0 ⊢
        rw [h0, mul_zero]
      · exact ih ls q h h0

/-- C4 (amended): for a node satisfying the tree's construction invariants
— selection vector and legal mask of equal length, a 0/1 legal mask, and
priors and (refreshed) child win rates vanishing at illegal indices — and
whose pre-normalization selection vector has a *nonzero sum*,
`ChildProbability(f)` sums exactly to 1 and is 0 at every illegal index
(so the sum over the legal indices alone is also 1).  The nonzero-sum
hypothesis cannot be dropped: a fresh node falsifies the unconditional
claim (see the counterexample). -/
theorem C4_amended_probability_distribution (n : Node) (f : ℚ)
    (hlen : (n.selectionRates f).length = n.legalActions.length)
    (hmask : ∀ x ∈ n.legalActions, x = 0 ∨ x = 1)
    (hpr : ∀ q ∈ List.zip n.priors n.legalActions, q.2 = 0 → q.1 = 0)
    (hcwr : ∀ q ∈ List.zip n.childWinRatesList n.legalActions, q.2 = 0 → q.1 = 0)
    (hs : (n.selectionRates f).sum ≠ 0) :
    (n.childProbability f).sum = 1
  ∧ ∀ q ∈ List.zip (n.childProbability f) n.legalActions, q.2 = 0 → q.1 = 0 := by
  have hzero : ∀ q ∈ List.zip (n.selectionRates f) n.legalActions, q.2 = 0 → q.1 = 0 := by
    have hb := zip_bonus_zero f n.plays n.priors n.childPlaysList n.legalActions hpr
    exact zip_add_zero n.childWinRatesList
      (List.zipWith (fun pr cp => f * pr * n.plays / (1 + cp)) n.priors n.childPlaysList)
      n.legalActions hcwr hb
  constructor
  · rw [Node.childProbability,
      masked_div_sum ((n.selectionRates f).sum) hs (n.selectionRates f) n.legalActions
        hlen hmask hzero]
    exact div_self hs
  · intro q hq h0
    exact masked_div_mask_zero ((n.selectionRates f).sum) (n.selectionRates f)
      n.legalActions q hq h0

/-- Witness node for the amended C4: two legal actions, masked priors
`[1/2, 1/2]`, 2 plays, no children — selection rates `[1, 1]`, sum `2`. -/
def c4wit : Node := Node.mk ⟨0, 0⟩ 0 2 [1, 1] [1/2, 1/2] (some []) [0, 0] [0, 0]

/-- Witness for `C4_amended_probability_distribution` at `c4wit`, `f = 1`. -/
theorem C4_amended_probability_distribution_witness :
    (c4wit.childProbability 1).sum = 1
  ∧ ∀ q ∈ List.zip (c4wit.childProbability 1) c4wit.legalActions, q.2 = 0 → q.1 = 0 := by
  have hrates : c4wit.selectionRates 1 = [1, 1] := by
    norm_num [c4wit, Node.selectionRates, Node.childWinRatesList, Node.childPlaysList,
      refreshCache, Node.childrenList, Node.children, Node.cwrCache, Node.cpCache,
      Node.priors, Node.plays]
  have hlen : (c4wit.selectionRates 1).length = c4wit.legalActions.length := by
    rw [hrates]
    rfl
  have hmask : ∀ x ∈ c4wit.legalActions, x = (0:ℚ) ∨ x = 1 := by
    intro x hx
    rw [show c4wit.legalActions = [1, 1] from rfl] at hx
    fin_cases hx <;> norm_num
  have hpr : ∀ q ∈ List.zip c4wit.priors c4wit.legalActions, q.2 = 0 → q.1 = 0 := by
    intro q hq
    rw [show List.zip c4wit.priors c4wit.legalActions = [(1/2, 1), (1/2, 1)] from rfl] at hq
    fin_cases hq <;> norm_num
  have hcwr : ∀ q ∈ List.zip c4wit.childWinRatesList c4wit.legalActions, q.2 = 0 → q.1 = 0 := by
    intro q hq
    rw [show List.zip c4wit.childWinRatesList c4wit.legalActions = [(0, 1), (0, 1)] from rfl] at hq
    fin_cases hq <;> norm_num
  have hs : (c4wit.selectionRates 1).sum ≠ 0 := by
    rw [hrates]
    norm_num
  exact C4_amended_probability_distribution c4wit 1 hlen hmask hpr hcwr hs

/-- `Children[i]` as an optional node (`None` slots and out-of-range
indices collapse to `none`). -/
def childAt (n : Node) (i : ℕ) : Option Node :=
  match n.children with
  | none => none
  | some cs => (cs.get? i).bind id

lemma bumpPlays_plays (n : Node) : n.bumpPlays.plays = n.plays + 1 := by
  cases n; rfl

lemma bumpPlays_value (n : Node) : n.bumpPlays.value = n.value := by
  cases n; rfl

lemma bumpPlays_state (n : Node) : n.bumpPlays.state = n.state := by
  cases n; rfl

lemma bumpPlays_children (n : Node) : n.bumpPlays.children = n.children := by
  cases n; rfl

lemma addValue_plays (x : ℚ) (n : Node) : (Node.addValue x n).plays = n.plays := by
  cases n; rfl

lemma addValue_value (x : ℚ) (n : Node) : (Node.addValue x n).value = n.value + x := by
  cases n; rfl

lemma addValue_state (x : ℚ) (n : Node) : (Node.addValue x n).state = n.state := by
  cases n; rfl

lemma addValue_children (x : ℚ) (n : Node) : (Node.addValue x n).children = n.children := by
  cases n; rfl

lemma getNode_nil (n : Node) : getNode n [] = some n := rfl

lemma getNode_cons_eq (n : Node) (i : ℕ) (q : List ℕ) :
    getNode n (i :: q) = (childAt n i).bind (fun c => getNode c q) := by
  cases n with
  | mk s v p l pr ch w cq =>
    cases ch with
    | none => rfl
    | some cs =>
      simp only [getNode, childAt, Node.children]
      cases hg : cs.get? i with
      | none => rfl
      | some oc =>
        cases oc with
        | none => rfl
        | some c => rfl

lemma childAt_bumpPlays (n : Node) (i : ℕ) : childAt n.bumpPlays i = childAt n i := by
  unfold childAt
  rw [bumpPlays_children]

lemma childAt_addValue (x : ℚ) (n : Node) (i : ℕ) :
    childAt (Node.addValue x n) i = childAt n i := by
  unfold childAt
  rw [addValue_children]

lemma getNode_bumpPlays_cons (n : Node) (i : ℕ) (q : List ℕ) :
    getNode n.bumpPlays (i :: q) = getNode n (i :: q) := by
  rw [getNode_cons_eq, getNode_cons_eq, childAt_bumpPlays]

lemma getNode_addValue_cons (x : ℚ) (n : Node) (i : ℕ) (q : List ℕ) :
    getNode (Node.addValue x n) (i :: q) = getNode n (i :: q) := by
  rw [getNode_cons_eq, getNode_cons_eq, childAt_addValue]

lemma getNode_addValue_ne_nil (x : ℚ) (n : Node) (q : List ℕ) (h : q ≠ []) :
    getNode (Node.addValue x n) q = getNode n q := by
  cases q with
  | nil => exact absurd rfl h
  | cons i q0 => exact getNode_addValue_cons x n i q0

lemma backProp_nil (v : ℚ) (p : ℕ) (t : Node) : backProp v p t [] = t.bumpPlays := rfl

lemma backProp_cons (v : ℚ) (p : ℕ) (t : Node) (i : ℕ) (rest : List ℕ)
    (cs : List (Option Node)) (c : Node)
    (hcs : t.children = some cs) (hc : cs.get? i = some (some c)) :
    backProp v p t (i :: rest) = Node.bumpPlays (Node.mk t.state t.value t.plays
      t.legalActions t.priors
      (some (cs.set i (some (backProp v p
        (Node.addValue (if t.state.player = p then v else 1 - v) c) rest))))
      t.cwrCache t.cpCache) := by
  cases t with
  | mk s nv np l pr ch w qq =>
    simp only [Node.children] at hcs
    subst hcs
    simp only [backProp, hc, Node.state, Node.value, Node.plays, Node.legalActions,
      Node.priors, Node.cwrCache, Node.cpCache]

lemma getNode_cons_isSome (t : Node) (i : ℕ) (q : List ℕ)
    (h : (getNode t (i :: q)).isSome) :
    ∃ cs c, t.children = some cs ∧ cs.get? i = some (some c) ∧ (getNode c q).isSome := by
  rw [getNode_cons_eq] at h
  cases hca : childAt t i with
  | none => rw [hca] at h; simp at h
  | some c =>
    rw [hca] at h
    simp only [Option.some_bind] at h
    unfold childAt at hca
    cases hch : t.children with
    | none => rw [hch] at hca; simp at hca
    | some cs =>
      rw [hch] at hca
      simp only at hca
      cases hg : cs.get? i with
      | none => rw [hg] at hca; simp at hca
      | some oc =>
        rw [hg] at hca
        cases oc with
        | none => simp at hca
        | some c2 =>
          simp only [Option.bind_some, id] at hca
          have hc2 : c2 = c := Option.some.inj hca
          subst hc2
          exact ⟨cs, c2, rfl, hg, h⟩

lemma Node.plays_mk (s : GState) (v p : ℚ) (l pr : List ℚ)
    (c : Option (List (Option Node))) (w q : List ℚ) :
    Node.plays (.mk s v p l pr c w q) = p := rfl

lemma Node.value_mk (s : GState) (v p : ℚ) (l pr : List ℚ)
    (c : Option (List (Option Node))) (w q : List ℚ) :
    Node.value (.mk s v p l pr c w q) = v := rfl

lemma childAt_mk (s : GState) (v p : ℚ) (l pr : List ℚ) (cs : List (Option Node))
    (w q : List ℚ) (i : ℕ) :
    childAt (Node.mk s v p l pr (some cs) w q) i = (cs.get? i).bind id := rfl

lemma childAt_eq_of_children (n : Node) (cs : List (Option Node))
    (h : n.children = some cs) (i : ℕ) : childAt n i = (cs.get? i).bind id := by
  cases n with
  | mk s v p l pr ch w q =>
    simp only [Node.children] at h
    subst h
    rfl

/-- C2: `BackProp(leaf, stateValue, playerForValue)` along a valid path
(addressed top-down from the topmost ancestor to the leaf): every node on
the path gains exactly one play; every node on the path that has a parent
gains `stateValue` in its value when the parent's player to move equals
`playerForValue` and `1 - stateValue` otherwise; the topmost node's value
is unchanged; and every node whose address is not on the path is
untouched. -/
theorem C2_backProp_updates (v : ℚ) (p : ℕ) (path : List ℕ) :
    ∀ (t : Node), (getNode t path).isSome →
    (∀ q r, q ++ r = path →
        (getNode (backProp v p t path) q).map Node.plays
          = (getNode t q).map (fun n => n.plays + 1))
  ∧ (getNode (backProp v p t path) []).map Node.value = (getNode t []).map Node.value
  ∧ (∀ q j r, q ++ j :: r = path →
        (getNode (backProp v p t path) (q ++ [j])).map Node.value
          = Option.map₂ (fun par ch =>
              Node.value ch + (if (Node.state par).player = p then v else 1 - v))
            (getNode t q) (getNode t (q ++ [j])))
  ∧ (∀ q, (¬ ∃ r, q ++ r = path) → getNode (backProp v p t path) q = getNode t q) := by
  induction path with
  | nil =>
    intro t _
    refine ⟨?_, ?_, ?_, ?_⟩
    · intro q r hqr
      have hq : q = [] := (List.append_eq_nil.mp hqr).1
      subst hq
      rw [backProp_nil, getNode_nil, getNode_nil]
      simp [bumpPlays_plays]
    · rw [backProp_nil, getNode_nil, getNode_nil]
      simp [bumpPlays_value]
    · intro q j r hqr
      simp at hqr
    · intro q hq
      cases q with
      | nil => exact absurd ⟨[], rfl⟩ hq
      | cons j q1 => rw [backProp_nil]; exact getNode_bumpPlays_cons t j q1
  | cons i rest ih =>
    intro t hvalid
    obtain ⟨cs, c, hcs, hc, hvc⟩ := getNode_cons_isSome t i rest hvalid
    have hilt : i < cs.length := by
      by_contra hge
      push_neg at hge
      rw [List.get?_eq_none.mpr hge] at hc
      cases hc
    have hvc' : (getNode (Node.addValue (if t.state.player = p then v else 1 - v) c)
        rest).isSome := by
      cases rest with
      | nil => rw [getNode_nil]; rfl
      | cons k q0 => rw [getNode_addValue_cons]; exact hvc
    have IH := ih (Node.addValue (if t.state.player = p then v else 1 - v) c) hvc'
    have hbp := backProp_cons v p t i rest cs c hcs hc
    have hchR : childAt (Node.mk t.state t.value t.plays t.legalActions t.priors
        (some (cs.set i (some (backProp v p
          (Node.addValue (if t.state.player = p then v else 1 - v) c) rest))))
        t.cwrCache t.cpCache) i
        = some (backProp v p
            (Node.addValue (if t.state.player = p then v else 1 - v) c) rest) := by
      rw [childAt_mk, List.get?_set_eq_of_lt _ hilt]
      rfl
    have hchT : childAt t i = some c := by
      rw [childAt_eq_of_children t cs hcs, hc]
      rfl
    refine ⟨?_, ?_, ?_, ?_⟩
    · intro q r hqr
      cases q with
      | nil =>
        rw [hbp, getNode_nil, getNode_nil]
        simp [bumpPlays_plays, Node.plays_mk]
      | cons j q1 =>
        rw [List.cons_append] at hqr
        injection hqr with hj hrest
        subst hj
        rw [hbp, getNode_bumpPlays_cons, getNode_cons_eq, hchR, Option.some_bind,
          getNode_cons_eq, hchT, Option.some_bind]
        rw [IH.1 q1 r hrest]
        cases q1 with
        | nil =>
          rw [getNode_nil, getNode_nil]
          simp [addValue_plays]
        | cons k q2 => rw [getNode_addValue_cons]
    · rw [hbp, getNode_nil, getNode_nil]
      simp [bumpPlays_value, Node.value_mk]
    · intro q j r hqr
      cases q with
      | nil =>
        simp only [List.nil_append] at hqr ⊢
        injection hqr with hj hrest
        subst hj
        subst hrest
        rw [hbp, getNode_bumpPlays_cons, getNode_cons_eq, hchR, Option.some_bind,
          getNode_nil, getNode_nil, getNode_cons_eq, hchT, Option.some_bind, getNode_nil]
        have h2 := IH.2.1
        rw [getNode_nil, getNode_nil] at h2
        simp only [Option.map₂, Option.some_bind]
        simp only [Option.map] at h2 ⊢
        rw [h2]
        simp [addValue_value, addValue_state]
      | cons j0 q1 =>
        rw [List.cons_append] at hqr
        injection hqr with hj0 hrest
        subst hj0
        simp only [List.cons_append]
        rw [hbp, getNode_bumpPlays_cons, getNode_cons_eq, hchR, Option.some_bind]
        rw [getNode_cons_eq, hchT, Option.some_bind]
        rw [getNode_cons_eq, hchT, Option.some_bind]
        rw [IH.2.2.1 q1 j r hrest]
        have h2nd : getNode (Node.addValue (if t.state.player = p then v else 1 - v) c)
            (q1 ++ [j]) = getNode c (q1 ++ [j]) :=
          getNode_addValue_ne_nil _ _ _ (by simp)
        rw [h2nd]
        cases q1 with
        | nil =>
          rw [getNode_nil, getNode_nil]
          cases hX : getNode c ([] ++ [j]) with
          | none => simp [Option.map₂]
          | some ch => simp [Option.map₂, addValue_state]
        | cons k q2 => rw [getNode_addValue_cons]
    · intro q hq
      cases q with
      | nil => exact absurd ⟨i :: rest, rfl⟩ hq
      | cons j q1 =>
        by_cases hji : j = i
        · subst hji
          have hq1 : ¬ ∃ r, q1 ++ r = rest := by
            rintro ⟨r, hr⟩
            exact hq ⟨r, by rw [List.cons_append, hr]⟩
          have hq1ne : q1 ≠ [] := by
            rintro rfl
            exact hq1 ⟨rest, rfl⟩
          rw [hbp, getNode_bumpPlays_cons, getNode_cons_eq, hchR, Option.some_bind,
            getNode_cons_eq, hchT, Option.some_bind]
          rw [IH.2.2.2 q1 hq1]
          exact getNode_addValue_ne_nil _ _ _ hq1ne
        · rw [hbp, getNode_bumpPlays_cons, getNode_cons_eq, getNode_cons_eq]
          have hchRj : childAt (Node.mk t.state t.value t.plays t.legalActions t.priors
              (some (cs.set i (some (backProp v p
                (Node.addValue (if t.state.player = p then v else 1 - v) c) rest))))
              t.cwrCache t.cpCache) j = childAt t j := by
            rw [childAt_mk, childAt_eq_of_children t cs hcs,
              List.get?_set_ne _ _ (fun h => hji h.symm)]
          rw [hchRj]

/-- Leaf of the witness tree for C2. -/
def c2leaf : Node := Node.mk ⟨1, 1⟩ 2 3 [1] [1] (some []) [0] [0]

/-- Witness tree for C2: a root (player 0) with a single child. -/
def c2tree : Node := Node.mk ⟨0, 0⟩ 5 7 [1] [1] (some [some c2leaf]) [0] [0]

/-- Witness for `C2_backProp_updates`: the path `[0]` in `c2tree` with
`stateValue = 1/2` and `playerForValue = 0`. -/
theorem C2_backProp_updates_witness :
    (∀ q r, q ++ r = [0] →
        (getNode (backProp (1/2) 0 c2tree [0]) q).map Node.plays
          = (getNode c2tree q).map (fun n => n.plays + 1))
  ∧ (getNode (backProp (1/2) 0 c2tree [0]) []).map Node.value
      = (getNode c2tree []).map Node.value
  ∧ (∀ q j r, q ++ j :: r = [0] →
        (getNode (backProp (1/2) 0 c2tree [0]) (q ++ [j])).map Node.value
          = Option.map₂ (fun par ch =>
              Node.value ch + (if (Node.state par).player = 0 then (1/2 : ℚ) else 1 - 1/2))
            (getNode c2tree q) (getNode c2tree (q ++ [j])))
  ∧ (∀ q, (¬ ∃ r, q ++ r = [0]) →
        getNode (backProp (1/2) 0 c2tree [0]) q = getNode c2tree q) :=
  C2_backProp_updates (1/2) 0 [0] c2tree rfl
